import Mathlib

/-!
Shallow embedding of the `xmltree` library (single file `src/lib.rs`): an XML
event stream is parsed into an in-memory `Element` tree (`build`,
`Element.parse`), serialized back to an event stream (`Element._write`,
`Element.write`), and navigated (`get_child`, `get_mut_child`, `take_child`).

Modelling choices, recorded once here:
* The tokenizer (`xml-rs` `EventReader`) is external; its output is modelled
  as a finite list of `Token`s, each either a lexical event or a lexical
  error.  Lexical errors are opaque, modelled by a `Nat` code.  Pulling past
  the end of the list is modelled as the tokenizer reporting an end-of-input
  lexical error (in `xml-rs`, `next()` at an unterminated point yields `Err`).
* `HashMap<String, String>` is modelled as an association list with
  `mapInsert` giving the `HashMap::insert` semantics: the value of an
  existing key is replaced, otherwise the pair is appended.  Equality of the
  model is finer than `HashMap` equality, so every equation proved here about
  attribute maps also holds for the `HashMap`.
* `xml::namespace::Namespace` is external; it is modelled as a list of
  binding pairs, with `Namespace.isEssentiallyEmpty` following the `xml-rs`
  definition (only the three well-known bindings may occur).
* The emitter is external; `Element._write` is modelled in emitter-state
  passing style, the state being the list of events written so far.  The
  writer-side and reader-side event types of `xml-rs` are identified in the
  single type `XmlEvent` (the writer's `EndElement` carries `Some(name)` in
  the source; the model keeps the name directly).
* Rust methods that mutate `self` (`take_child`) return the new value of
  `self` alongside their result.
-/

namespace Xmltree

/-- Model of `xml::namespace::Namespace`: a set of prefix-to-URI bindings. -/
abbrev Namespace := List (String × String)

/-- Model of `Namespace::empty()`. -/
def Namespace.empty : Namespace := []

/-- Model of `xml-rs` `Namespace::is_essentially_empty`: every binding is one
of the three built-in ones (no prefix to no URI, `xml`, `xmlns`). -/
def Namespace.isEssentiallyEmpty (n : Namespace) : Bool :=
  n.all fun b =>
    b == ("", "") ||
    b == ("xml", "http://www.w3.org/XML/1998/namespace") ||
    b == ("xmlns", "http://www.w3.org/2000/xmlns/")

/-- Model of `xml::name::OwnedName` / `Name`: `pfx` models the `prefix`
field and `ns` the `namespace` field (both Lean keywords). -/
structure Name where
  pfx : Option String
  ns : Option String
  local_name : String
deriving DecidableEq, Repr

/-- Model of `Name::local`: only the local part is set. -/
def Name.local (s : String) : Name := ⟨none, none, s⟩

/-- Model of `xml::attribute::OwnedAttribute` / `Attribute`. -/
structure OwnedAttribute where
  name : Name
  value : String
deriving DecidableEq, Repr

/-- Model of `xml::reader::XmlEvent` (restricted to the payload the library
reads: `attributes` keeps name and value, `startElement` its namespace). -/
inductive XmlEvent where
  | startDocument
  | endDocument
  | startElement (name : Name) (attributes : List OwnedAttribute) (ns : Namespace)
  | endElement (name : Name)
  | characters (s : String)
  | cdata (s : String)
  | comment (s : String)
  | whitespace (s : String)
  | processingInstruction
deriving DecidableEq, Repr

/-- One pull from the tokenizer: `Ok(event)` or `Err(lexical error)`. -/
inductive Token where
  | ev (e : XmlEvent)
  | err (e : Nat)
deriving DecidableEq, Repr

/-- Model of `ParseError` (`MalformedXml` keeps the opaque lexical error). -/
inductive ParseError where
  | malformedXml (e : Nat)
  | cannotParse
deriving DecidableEq, Repr

/-- Model of `struct Element`.  Field `pfx` models `prefix` and `ns` models
`namespace` (Lean keywords); `attributes` is the association-list model of
the `HashMap`.  A recursive structure must be an inductive in Lean, so the
fields are constructor arguments with accessor functions below. -/
inductive Element where
  | mk (pfx : Option String) (ns : Option String) (namespaces : Option Namespace)
      (name : String) (attributes : List (String × String))
      (children : List Element) (text : Option String)

/-- Accessor for the `prefix` field. -/
def Element.pfx : Element → Option String
  | .mk p _ _ _ _ _ _ => p

/-- Accessor for the `namespace` field. -/
def Element.ns : Element → Option String
  | .mk _ n _ _ _ _ _ => n

/-- Accessor for the `namespaces` field. -/
def Element.namespaces : Element → Option Namespace
  | .mk _ _ m _ _ _ _ => m

/-- Accessor for the `name` field. -/
def Element.name : Element → String
  | .mk _ _ _ nm _ _ _ => nm

/-- Accessor for the `attributes` field. -/
def Element.attributes : Element → List (String × String)
  | .mk _ _ _ _ a _ _ => a

/-- Accessor for the `children` field. -/
def Element.children : Element → List Element
  | .mk _ _ _ _ _ c _ => c

/-- Accessor for the `text` field. -/
def Element.text : Element → Option String
  | .mk _ _ _ _ _ _ t => t

/-- Field update `elem.text = t`. -/
def Element.withText : Element → Option String → Element
  | .mk p n m nm a c _, t => .mk p n m nm a c t

/-- Field update replacing `children`. -/
def Element.withChildren : Element → List Element → Element
  | .mk p n m nm a _ t, c => .mk p n m nm a c t

/-- Statement `elem.children.push(child)`. -/
def Element.pushChild : Element → Element → Element
  | .mk p n m nm a c t, child => .mk p n m nm a (c ++ [child]) t

/-- Model of `HashMap::insert` on the association list: replace the value of
an existing key in place, otherwise append the new pair. -/
def mapInsert : List (String × String) → String → String → List (String × String)
  | [], k, v => [(k, v)]
  | (k', v') :: m, k, v =>
      if k' = k then (k, v) :: m else (k', v') :: mapInsert m k v

/-- The attribute-flattening loop shared by `build` and `Element::parse`:
`for attr in attributes { attr_map.insert(attr.name.local_name, attr.value) }`
starting from an empty map. -/
def foldAttrs (attributes : List OwnedAttribute) : List (String × String) :=
  attributes.foldl (fun m a => mapInsert m a.name.local_name a.value) []

/-- The `Element` literal built from a `StartElement` event, as written
identically in `build` (lines 115-137) and `Element::parse` (lines 173-195):
prefix and namespace are taken from the event name, the attribute list is
flattened into the map, and the namespace set is kept only when it is not
essentially empty. -/
def fromStart (name : Name) (attributes : List OwnedAttribute) (n : Namespace) : Element :=
  .mk name.pfx name.ns
    (if n.isEssentiallyEmpty then none else some n)
    name.local_name (foldAttrs attributes) [] none

/-- The end-of-input lexical error code (see the header comment: pulling past
the end of the token list is a tokenizer-reported lexical error). -/
def eofError : Nat := 0

/-- Model of `fn build`: the element-body loop.  The Rust loop pulls one
token per iteration; the model recurses on a fuel counter, with the returned
remaining token list made explicit.  Every call site supplies
`fuel ≥ tokens.length`, which is enough fuel: each iteration consumes one
token and `build` never returns more tokens than it was given, so the
`(0, _ :: _)` branch is unreachable from those call sites (it reuses the
end-of-input error). -/
def build : Nat → List Token → Element → Except ParseError (Element × List Token)
  | _, [], _ => .error (.malformedXml eofError)
  | 0, _ :: _, _ => .error (.malformedXml eofError)
  | fuel + 1, t :: ts, elem =>
    match t with
    | .ev (.endElement name) =>
        if name.local_name = elem.name then .ok (elem, ts)
        else .error .cannotParse
    | .ev (.startElement name attributes n) =>
        match build fuel ts (fromStart name attributes n) with
        | .error e => .error e
        | .ok (child, ts') => build fuel ts' (elem.pushChild child)
    | .ev (.characters s) => build fuel ts (elem.withText (some s))
    | .ev (.whitespace _) => build fuel ts elem
    | .ev (.comment _) => build fuel ts elem
    | .ev (.cdata s) => build fuel ts (elem.withText (some s))
    | .ev .startDocument => .error .cannotParse
    | .ev .endDocument => .error .cannotParse
    | .ev .processingInstruction => .error .cannotParse
    | .err e => .error (.malformedXml e)

/-- Model of `Element::parse`: the root-search loop.  On `StartElement` the
root literal is `fromStart` (the identical inline construction) and the body
is handed to `build`, whose remaining tokens are discarded. -/
def Element.parse : List Token → Except ParseError Element
  | [] => .error (.malformedXml eofError)
  | t :: ts =>
    match t with
    | .ev (.startElement name attributes n) =>
        match build ts.length ts (fromStart name attributes n) with
        | .ok (root, _) => .ok root
        | .error e => .error e
    | .ev (.comment _) => Element.parse ts
    | .ev (.whitespace _) => Element.parse ts
    | .ev .startDocument => Element.parse ts
    | .ev .endDocument => .error .cannotParse
    | .ev (.endElement _) => .error .cannotParse
    | .ev (.characters _) => .error .cannotParse
    | .ev (.cdata _) => .error .cannotParse
    | .ev .processingInstruction => .error .cannotParse
    | .err e => .error (.malformedXml e)

/-- The name composition at the top of `Element::_write`: start from
`Name::local(&self.name)`, then set the namespace and then the prefix when
present. -/
def composeName (p n : Option String) (nm : String) : Name :=
  let name := Name.local nm
  let name := match n with
    | some u => { name with ns := some u }
    | none => name
  match p with
  | some q => { name with pfx := some q }
  | none => name

/-- The attribute flattening in `Element::_write`: each map entry becomes an
`Attribute` with a local-only name. -/
def attrList (a : List (String × String)) : List OwnedAttribute :=
  a.map fun kv => ⟨Name.local kv.1, kv.2⟩

mutual

/-- Model of `Element::_write`: emitter-state passing style, the state being
the list of events emitted so far.  Exactly mirrors the source: compose the
name, flatten the attributes, pick the recorded namespace set or the empty
one, emit `StartElement`, emit `Characters` when `text` is present, recurse
over the children in order, emit `EndElement` with the same name. -/
def Element._write : Element → List XmlEvent → List XmlEvent
  | .mk p n m nm a c t, emitted =>
    let name := composeName p n nm
    let attributes := attrList a
    let nsSet := match m with
      | some s => s
      | none => Namespace.empty
    let emitted := emitted ++ [XmlEvent.startElement name attributes nsSet]
    let emitted := match t with
      | some s => emitted ++ [XmlEvent.characters s]
      | none => emitted
    let emitted := writeChildren c emitted
    emitted ++ [XmlEvent.endElement name]

/-- The `for elem in &self.children { elem._write(emitter)? }` loop. -/
def writeChildren : List Element → List XmlEvent → List XmlEvent
  | [], emitted => emitted
  | c :: cs, emitted => writeChildren cs (c._write emitted)

end

/-- Model of `Element::write` (through `write_with_config`): run `_write` on
a fresh emitter; the emitter's formatting configuration is external and does
not alter the event sequence. -/
def Element.write (e : Element) : List XmlEvent := e._write []

/-- Model of `Element::get_child`: first child whose `name` equals the key. -/
def Element.get_child (e : Element) (k : String) : Option Element :=
  e.children.find? fun c => c.name == k

/-- Model of `Element::get_mut_child`: same lookup as `get_child` (the
mutable reference is irrelevant to a functional model). -/
def Element.get_mut_child (e : Element) (k : String) : Option Element :=
  e.children.find? fun c => c.name == k

/-- Model of `Element::take_child`: `position` then `Vec::remove(i)`.  The
first component is the removed child (if any), the second the new value of
`self`. -/
def Element.take_child (e : Element) (k : String) : Option Element × Element :=
  match e.children.findIdx? (fun c => c.name == k) with
  | none => (none, e)
  | some i => (e.children.get? i, e.withChildren (e.children.eraseIdx i))

/-- Model of `Element::new`. -/
def Element.new (name : String) : Element :=
  .mk none none none name [] [] none

/-- The `StartElement` event `_write` emits for an element. -/
def startEvent (e : Element) : XmlEvent :=
  .startElement (composeName e.pfx e.ns e.name) (attrList e.attributes)
    (e.namespaces.getD Namespace.empty)

mutual

/-- Modelled from the spec (section 4.2): the per-node event sequence after
the opening `StartElement` — zero-or-one `Characters`, the children in
order, one closing `EndElement` with the composed name. -/
def bodyEvents : Element → List XmlEvent
  | .mk p n _ nm _ c t =>
    (match t with
      | some s => [XmlEvent.characters s]
      | none => []) ++
    specEventsList c ++ [XmlEvent.endElement (composeName p n nm)]

/-- Concatenation of the per-node event sequences of a list of elements. -/
def specEventsList : List Element → List XmlEvent
  | [] => []
  | c :: cs => startEvent c :: bodyEvents c ++ specEventsList cs

end

/-- Modelled from the spec (section 4.2): the full fixed event sequence of
one node. -/
def specEvents (e : Element) : List XmlEvent := startEvent e :: bodyEvents e

mutual

/-- Number of nodes of a tree. -/
def nodeCount : Element → Nat
  | .mk _ _ _ _ _ c _ => 1 + nodeCountList c

/-- Number of nodes of a forest. -/
def nodeCountList : List Element → Nat
  | [] => 0
  | c :: cs => nodeCount c + nodeCountList cs

end

mutual

/-- Number of nodes whose `text` field is present. -/
def textCount : Element → Nat
  | .mk _ _ _ _ _ c t => (if t.isSome then 1 else 0) + textCountList c

/-- `textCount` over a forest. -/
def textCountList : List Element → Nat
  | [] => 0
  | c :: cs => textCount c + textCountList cs

end

/-- Recognizer for `StartElement` events. -/
def isStart : XmlEvent → Bool
  | .startElement _ _ _ => true
  | _ => false

/-- Recognizer for `EndElement` events. -/
def isEnd : XmlEvent → Bool
  | .endElement _ => true
  | _ => false

/-- Recognizer for `Characters` events. -/
def isChars : XmlEvent → Bool
  | .characters _ => true
  | _ => false

mutual

/-- Invariant of every element the parser builds: attribute keys are unique,
a recorded namespace set is never essentially empty, and the children
satisfy the same invariant. -/
def WF : Element → Prop
  | .mk _ _ m _ a c _ =>
    (a.map Prod.fst).Nodup ∧
    (∀ s, m = some s → s.isEssentiallyEmpty = false) ∧
    WFList c

/-- `WF` for every element of a forest. -/
def WFList : List Element → Prop
  | [] => True
  | c :: cs => WF c ∧ WFList cs

end

/-- The element as rebuilt from its own `StartElement` event: same scalar
fields, no children, no text yet. -/
def startOf (e : Element) : Element :=
  .mk e.pfx e.ns e.namespaces e.name e.attributes [] none

/-- Tokens the root-search phase skips: `Comment`, `Whitespace`,
`StartDocument`. -/
def Skippable : Token → Prop
  | .ev (.comment _) => True
  | .ev (.whitespace _) => True
  | .ev .startDocument => True
  | _ => False

/-! ### Lemmas about the attribute map -/

theorem mapInsert_keys (m : List (String × String)) (k v : String) :
    (mapInsert m k v).map Prod.fst =
      if k ∈ m.map Prod.fst then m.map Prod.fst else m.map Prod.fst ++ [k] := by
  induction m with
  | nil => simp [mapInsert]
  | cons p m ih =>
      obtain ⟨k', v'⟩ := p
      by_cases h : k' = k
      · subst h
        simp [mapInsert]
      · have hne : ¬ k = k' := fun hh => h hh.symm
        by_cases hm : k ∈ m.map Prod.fst
        · simp [mapInsert, if_neg h, ih, hm, hne]
        · simp [mapInsert, if_neg h, ih, hm, hne]

theorem mapInsert_nodup (m : List (String × String)) (k v : String)
    (h : (m.map Prod.fst).Nodup) : ((mapInsert m k v).map Prod.fst).Nodup := by
  rw [mapInsert_keys]
  by_cases hm : k ∈ m.map Prod.fst
  · simpa [hm] using h
  · rw [if_neg hm]
    refine List.nodup_append.mpr ⟨h, List.nodup_singleton k, ?_⟩
    intro a ha hb
    simp only [List.mem_singleton] at hb
    subst hb
    exact hm ha

theorem mapInsert_not_mem (m : List (String × String)) (k v : String)
    (h : k ∉ m.map Prod.fst) : mapInsert m k v = m ++ [(k, v)] := by
  induction m with
  | nil => simp [mapInsert]
  | cons p m ih =>
      obtain ⟨k', v'⟩ := p
      simp only [List.map_cons, List.mem_cons] at h
      push_neg at h
      simp only [mapInsert, if_neg (Ne.symm h.1), List.cons_append]
      rw [ih h.2]

theorem foldAttrs_go_nodup (attributes : List OwnedAttribute) :
    ∀ m : List (String × String), (m.map Prod.fst).Nodup →
      ((attributes.foldl (fun m a => mapInsert m a.name.local_name a.value) m).map
        Prod.fst).Nodup := by
  induction attributes with
  | nil => intro m h; simpa using h
  | cons a attributes ih =>
      intro m h
      exact ih _ (mapInsert_nodup m a.name.local_name a.value h)

theorem foldAttrs_nodup (attributes : List OwnedAttribute) :
    ((foldAttrs attributes).map Prod.fst).Nodup :=
  foldAttrs_go_nodup attributes [] (by simp)

theorem refold_pairs :
    ∀ (m acc : List (String × String)), ((acc ++ m).map Prod.fst).Nodup →
      m.foldl (fun acc kv => mapInsert acc kv.1 kv.2) acc = acc ++ m := by
  intro m
  induction m with
  | nil => intro acc _; simp
  | cons kv m ih =>
      intro acc h
      obtain ⟨k, v⟩ := kv
      have h' : (acc.map Prod.fst ++ k :: m.map Prod.fst).Nodup := by simpa using h
      have hk : k ∉ acc.map Prod.fst := fun hmem =>
        (List.nodup_append.mp h').2.2 hmem (by simp)
      have step : mapInsert acc k v = acc ++ [(k, v)] := mapInsert_not_mem acc k v hk
      rw [List.foldl_cons, step, ih (acc ++ [(k, v)]) (by simpa [List.append_assoc] using h)]
      simp

theorem foldAttrs_attrList (m : List (String × String))
    (h : (m.map Prod.fst).Nodup) : foldAttrs (attrList m) = m := by
  unfold foldAttrs attrList
  rw [List.foldl_map]
  simpa using refold_pairs m [] (by simpa using h)

/-! ### Lemmas about `composeName`, `fromStart` and `WF` -/

theorem composeName_eq (p n : Option String) (nm : String) :
    composeName p n nm = ⟨p, n, nm⟩ := by
  cases p <;> cases n <;> rfl

theorem startEvent_def (e : Element) :
    startEvent e = .startElement ⟨e.pfx, e.ns, e.name⟩ (attrList e.attributes)
      (e.namespaces.getD Namespace.empty) := by
  rw [startEvent, composeName_eq]

theorem wf_mk (p n : Option String) (m : Option Namespace) (nm : String)
    (a : List (String × String)) (c : List Element) (t : Option String) :
    WF (.mk p n m nm a c t) ↔
      ((a.map Prod.fst).Nodup ∧
        (∀ s, m = some s → s.isEssentiallyEmpty = false) ∧ WFList c) := by
  rw [WF]

theorem wfList_iff : ∀ cs : List Element, WFList cs ↔ ∀ c ∈ cs, WF c := by
  intro cs
  induction cs with
  | nil => simp [WFList]
  | cons c cs ih => simp [WFList, ih]

theorem wf_fromStart (name : Name) (attributes : List OwnedAttribute)
    (n : Namespace) : WF (fromStart name attributes n) := by
  rw [fromStart, wf_mk]
  refine ⟨foldAttrs_nodup attributes, ?_, by simp [WFList]⟩
  intro s hs
  by_cases h : n.isEssentiallyEmpty
  · simp [h] at hs
  · rw [if_neg h] at hs
    cases hs
    exact Bool.not_eq_true _ ▸ eq_false_of_ne_true h

theorem wf_withText {e : Element} (h : WF e) (t : Option String) :
    WF (e.withText t) := by
  obtain ⟨p, n, m, nm, a, c, t'⟩ := e
  rw [Element.withText, wf_mk] at *
  exact h

theorem wf_pushChild {e child : Element} (he : WF e) (hc : WF child) :
    WF (e.pushChild child) := by
  obtain ⟨p, n, m, nm, a, c, t⟩ := e
  rw [Element.pushChild, wf_mk] at *
  refine ⟨he.1, he.2.1, ?_⟩
  rw [wfList_iff] at *
  intro x hx
  rcases List.mem_append.mp hx with hx | hx
  · exact he.2.2 x hx
  · rw [List.mem_singleton] at hx
    exact hx ▸ hc

theorem fromStart_startOf {e : Element} (h : WF e) :
    fromStart (composeName e.pfx e.ns e.name) (attrList e.attributes)
      (e.namespaces.getD Namespace.empty) = startOf e := by
  obtain ⟨p, n, m, nm, a, c, t⟩ := e
  rw [wf_mk] at h
  rw [composeName_eq, fromStart, startOf]
  simp only [Element.pfx, Element.ns, Element.namespaces, Element.name,
    Element.attributes]
  rw [foldAttrs_attrList a h.1]
  cases m with
  | none => rfl
  | some s =>
      have := h.2.1 s rfl
      simp [this]

/-! ### The serializer emits exactly the spec-shaped event sequence -/

mutual

theorem write_eq : ∀ (e : Element) (st : List XmlEvent),
    e._write st = st ++ specEvents e
  | .mk p n m nm a c t, st => by
      simp only [Element._write.eq_def, bodyEvents.eq_def]
      rw [specEvents]
      simp only [startEvent, Element.pfx, Element.ns, Element.name,
        Element.attributes, Element.namespaces]
      rw [writeChildren_eq c]
      cases t <;> cases m <;>
        simp [bodyEvents.eq_def, composeName_eq, Option.getD, Namespace.empty]

theorem writeChildren_eq : ∀ (cs : List Element) (st : List XmlEvent),
    writeChildren cs st = st ++ specEventsList cs
  | [], st => by simp [writeChildren, specEventsList]
  | c :: cs, st => by
      rw [writeChildren, writeChildren_eq cs, write_eq c, specEventsList,
        specEvents]
      simp

end

theorem write_specEvents (e : Element) : e.write = specEvents e := by
  rw [Element.write, write_eq]
  simp

/-! ### Structural simp lemmas -/

@[simp]
theorem pfx_mk (p n m nm a c t) : (Element.mk p n m nm a c t).pfx = p := rfl

@[simp]
theorem ns_mk (p n m nm a c t) : (Element.mk p n m nm a c t).ns = n := rfl

@[simp]
theorem namespaces_mk (p n m nm a c t) :
    (Element.mk p n m nm a c t).namespaces = m := rfl

@[simp]
theorem name_mk (p n m nm a c t) : (Element.mk p n m nm a c t).name = nm := rfl

@[simp]
theorem attributes_mk (p n m nm a c t) :
    (Element.mk p n m nm a c t).attributes = a := rfl

@[simp]
theorem children_mk (p n m nm a c t) :
    (Element.mk p n m nm a c t).children = c := rfl

@[simp]
theorem text_mk (p n m nm a c t) : (Element.mk p n m nm a c t).text = t := rfl

@[simp]
theorem withText_mk (p n m nm a c t t') :
    (Element.mk p n m nm a c t).withText t' = .mk p n m nm a c t' := rfl

@[simp]
theorem withChildren_mk (p n m nm a c t c') :
    (Element.mk p n m nm a c t).withChildren c' = .mk p n m nm a c' t := rfl

@[simp]
theorem pushChild_mk (p n m nm a c t child) :
    (Element.mk p n m nm a c t).pushChild child = .mk p n m nm a (c ++ [child]) t :=
  rfl

@[simp]
theorem pushChild_name (e child : Element) : (e.pushChild child).name = e.name := by
  obtain ⟨p, n, m, nm, a, c, t⟩ := e
  rfl

@[simp]
theorem pushChild_children (e child : Element) :
    (e.pushChild child).children = e.children ++ [child] := by
  obtain ⟨p, n, m, nm, a, c, t⟩ := e
  rfl

@[simp]
theorem withChildren_self (e : Element) : e.withChildren e.children = e := by
  obtain ⟨p, n, m, nm, a, c, t⟩ := e
  rfl

@[simp]
theorem startOf_mk (p n m nm a c t) :
    startOf (.mk p n m nm a c t) = .mk p n m nm a [] none := rfl

/-! ### `build` inverts the spec-shaped serialization of a well-formed tree -/

mutual

theorem build_spec : ∀ (e : Element), WF e → ∀ (rest : List Token) (fuel : Nat),
    ((bodyEvents e).map Token.ev ++ rest).length ≤ fuel →
    build fuel ((bodyEvents e).map Token.ev ++ rest) (startOf e) = .ok (e, rest)
  | .mk p n m nm a c t, hWF, rest, fuel, hfuel => by
      rw [wf_mk] at hWF
      rw [bodyEvents.eq_def] at hfuel ⊢
      cases t with
      | none =>
          simp only [List.map_append, List.nil_append, List.append_assoc,
            List.cons_append, List.map_cons, List.map_nil] at hfuel ⊢
          have := build_specList c hWF.2.2 (.mk p n m nm a [] none)
            (composeName p n nm) (by rw [composeName_eq]; rfl)
            rest fuel (by simpa using hfuel)
          simpa using this
      | some s =>
          simp only [List.map_append, List.append_assoc, List.cons_append,
            List.map_cons, List.map_nil, List.singleton_append,
            List.length_cons] at hfuel ⊢
          cases fuel with
          | zero => omega
          | succ f =>
              show build (f + 1)
                (Token.ev (XmlEvent.characters s) ::
                  ((specEventsList c).map Token.ev ++
                    (Token.ev (XmlEvent.endElement (composeName p n nm)) :: rest)))
                (startOf (.mk p n m nm a c (some s))) = _
              rw [build, startOf_mk, withText_mk]
              have := build_specList c hWF.2.2 (.mk p n m nm a [] (some s))
                (composeName p n nm) (by rw [composeName_eq]; rfl)
                rest f (by simp at hfuel ⊢; omega)
              simpa using this
  termination_by e _ _ _ _ => sizeOf e

theorem build_specList : ∀ (cs : List Element), WFList cs →
    ∀ (el : Element) (n : Name), n.local_name = el.name →
    ∀ (rest : List Token) (fuel : Nat),
    ((specEventsList cs).map Token.ev ++
      Token.ev (XmlEvent.endElement n) :: rest).length ≤ fuel →
    build fuel
      ((specEventsList cs).map Token.ev ++ Token.ev (XmlEvent.endElement n) :: rest)
      el = .ok (el.withChildren (el.children ++ cs), rest)
  | [], _, el, n, hloc, rest, fuel, hfuel => by
      rw [specEventsList] at hfuel ⊢
      simp only [List.map_nil, List.nil_append, List.length_cons] at hfuel ⊢
      cases fuel with
      | zero => omega
      | succ f =>
          rw [build]
          simp [hloc]
  | c :: cs, hl, el, n, hloc, rest, fuel, hfuel => by
      obtain ⟨hc, hcs⟩ := hl
      rw [specEventsList] at hfuel ⊢
      simp only [List.cons_append, List.map_cons, List.map_append,
        List.append_assoc, List.length_cons] at hfuel ⊢
      cases fuel with
      | zero => omega
      | succ f =>
          rw [startEvent_def, build]
          have hfrom : fromStart ⟨c.pfx, c.ns, c.name⟩ (attrList c.attributes)
              (c.namespaces.getD Namespace.empty) = startOf c := by
            rw [← composeName_eq]
            exact fromStart_startOf hc
          rw [hfrom]
          rw [build_spec c hc
            ((specEventsList cs).map Token.ev ++
              Token.ev (XmlEvent.endElement n) :: rest) f
            (by simp at hfuel ⊢; omega)]
          have := build_specList cs hcs (el.pushChild c) n
            (by rw [hloc, pushChild_name]) rest f
            (by simp at hfuel ⊢; omega)
          show build f
            ((specEventsList cs).map Token.ev ++
              Token.ev (XmlEvent.endElement n) :: rest) (el.pushChild c) = _
          rw [this]
          obtain ⟨p, n', m, nm, a, c', t⟩ := el
          simp
  termination_by cs _ _ _ _ _ _ _ => sizeOf cs

end

/-! ### Every parsed tree is well-formed -/

theorem build_wf : ∀ (fuel : Nat) (ts : List Token) (e T : Element)
    (ts' : List Token), WF e → build fuel ts e = .ok (T, ts') → WF T := by
  intro fuel
  induction fuel with
  | zero =>
      intro ts e T ts' _ h
      cases ts <;> simp [build] at h
  | succ f ih =>
      intro ts e T ts' hWF h
      cases ts with
      | nil => simp [build] at h
      | cons t ts =>
          cases t with
          | err e' => simp [build] at h
          | ev e' =>
              cases e' with
              | endElement nm =>
                  rw [build] at h
                  by_cases hn : nm.local_name = e.name
                  · simp only [if_pos hn, Except.ok.injEq, Prod.mk.injEq] at h
                    exact h.1 ▸ hWF
                  · simp [if_neg hn] at h
              | startElement nm attrs n0 =>
                  rw [build] at h
                  cases hb : build f ts (fromStart nm attrs n0) with
                  | error e0 => rw [hb] at h; simp at h
                  | ok r =>
                      obtain ⟨child, ts₁⟩ := r
                      rw [hb] at h
                      have hchild : WF child :=
                        ih ts (fromStart nm attrs n0) child ts₁
                          (wf_fromStart nm attrs n0) hb
                      exact ih ts₁ (e.pushChild child) T ts'
                        (wf_pushChild hWF hchild) h
              | characters s =>
                  rw [build] at h
                  exact ih ts (e.withText (some s)) T ts' (wf_withText hWF _) h
              | cdata s =>
                  rw [build] at h
                  exact ih ts (e.withText (some s)) T ts' (wf_withText hWF _) h
              | whitespace s =>
                  rw [build] at h
                  exact ih ts e T ts' hWF h
              | comment s =>
                  rw [build] at h
                  exact ih ts e T ts' hWF h
              | startDocument => simp [build] at h
              | endDocument => simp [build] at h
              | processingInstruction => simp [build] at h

theorem parse_wf : ∀ (ts : List Token) (T : Element),
    Element.parse ts = .ok T → WF T := by
  intro ts
  induction ts with
  | nil => intro T h; simp [Element.parse] at h
  | cons t ts ih =>
      intro T h
      cases t with
      | err e' => simp [Element.parse] at h
      | ev e' =>
          cases e' with
          | startElement nm attrs n0 =>
              rw [Element.parse] at h
              cases hb : build ts.length ts (fromStart nm attrs n0) with
              | error e0 => rw [hb] at h; simp at h
              | ok r =>
                  obtain ⟨root, rem⟩ := r
                  rw [hb] at h
                  simp only [Except.ok.injEq] at h
                  exact h ▸ build_wf ts.length ts (fromStart nm attrs n0) root rem
                    (wf_fromStart nm attrs n0) hb
          | comment s => rw [Element.parse] at h; exact ih T h
          | whitespace s => rw [Element.parse] at h; exact ih T h
          | startDocument => rw [Element.parse] at h; exact ih T h
          | endDocument => simp [Element.parse] at h
          | endElement nm => simp [Element.parse] at h
          | characters s => simp [Element.parse] at h
          | cdata s => simp [Element.parse] at h
          | processingInstruction => simp [Element.parse] at h

/-! ### Re-parsing the serialization of a well-formed tree -/

theorem parse_specEvents {T : Element} (h : WF T) :
    Element.parse ((specEvents T).map Token.ev) = .ok T := by
  rw [specEvents, startEvent_def]
  simp only [List.map_cons]
  rw [Element.parse]
  have hfrom : fromStart ⟨T.pfx, T.ns, T.name⟩ (attrList T.attributes)
      (T.namespaces.getD Namespace.empty) = startOf T := by
    rw [← composeName_eq]
    exact fromStart_startOf h
  rw [hfrom]
  have hb := build_spec T h [] ((bodyEvents T).map Token.ev).length (by simp)
  rw [List.append_nil] at hb
  rw [hb]

/-! ### Appending trailing tokens does not change a successful parse -/

theorem build_append : ∀ (fuel : Nat) (ts : List Token) (e T : Element)
    (ts' extra : List Token) (fuel' : Nat),
    build fuel ts e = .ok (T, ts') → fuel ≤ fuel' →
    build fuel' (ts ++ extra) e = .ok (T, ts' ++ extra) := by
  intro fuel
  induction fuel with
  | zero =>
      intro ts e T ts' extra fuel' h _
      cases ts <;> simp [build] at h
  | succ f ih =>
      intro ts e T ts' extra fuel' h hle
      cases ts with
      | nil => simp [build] at h
      | cons t ts =>
          cases fuel' with
          | zero => omega
          | succ f' =>
              have hle' : f ≤ f' := by omega
              cases t with
              | err e' => simp [build] at h
              | ev e' =>
                  cases e' with
                  | endElement nm =>
                      rw [build] at h
                      by_cases hn : nm.local_name = e.name
                      · simp only [if_pos hn, Except.ok.injEq,
                          Prod.mk.injEq] at h
                        rw [List.cons_append, build, if_pos hn]
                        rw [h.1, h.2]
                      · simp [if_neg hn] at h
                  | startElement nm attrs n0 =>
                      rw [build] at h
                      cases hb : build f ts (fromStart nm attrs n0) with
                      | error e0 => rw [hb] at h; simp at h
                      | ok r =>
                          obtain ⟨child, ts₁⟩ := r
                          rw [hb] at h
                          rw [List.cons_append, build,
                            ih ts (fromStart nm attrs n0) child ts₁ extra f'
                              hb hle']
                          exact ih ts₁ (e.pushChild child) T ts' extra f' h hle'
                  | characters s =>
                      rw [build] at h
                      rw [List.cons_append, build]
                      exact ih ts (e.withText (some s)) T ts' extra f' h hle'
                  | cdata s =>
                      rw [build] at h
                      rw [List.cons_append, build]
                      exact ih ts (e.withText (some s)) T ts' extra f' h hle'
                  | whitespace s =>
                      rw [build] at h
                      rw [List.cons_append, build]
                      exact ih ts e T ts' extra f' h hle'
                  | comment s =>
                      rw [build] at h
                      rw [List.cons_append, build]
                      exact ih ts e T ts' extra f' h hle'
                  | startDocument => simp [build] at h
                  | endDocument => simp [build] at h
                  | processingInstruction => simp [build] at h

theorem parse_append : ∀ (ts : List Token) (T : Element) (extra : List Token),
    Element.parse ts = .ok T → Element.parse (ts ++ extra) = .ok T := by
  intro ts
  induction ts with
  | nil => intro T extra h; simp [Element.parse] at h
  | cons t ts ih =>
      intro T extra h
      cases t with
      | err e' => simp [Element.parse] at h
      | ev e' =>
          cases e' with
          | startElement nm attrs n0 =>
              rw [Element.parse] at h
              cases hb : build ts.length ts (fromStart nm attrs n0) with
              | error e0 => rw [hb] at h; simp at h
              | ok r =>
                  obtain ⟨root, rem⟩ := r
                  rw [hb] at h
                  simp only [Except.ok.injEq] at h
                  rw [List.cons_append, Element.parse,
                    build_append ts.length ts (fromStart nm attrs n0) root rem
                      extra (ts ++ extra).length hb (by simp)]
                  rw [h]
          | comment s =>
              rw [Element.parse] at h
              rw [List.cons_append, Element.parse]
              exact ih T extra h
          | whitespace s =>
              rw [Element.parse] at h
              rw [List.cons_append, Element.parse]
              exact ih T extra h
          | startDocument =>
              rw [Element.parse] at h
              rw [List.cons_append, Element.parse]
              exact ih T extra h
          | endDocument => simp [Element.parse] at h
          | endElement nm => simp [Element.parse] at h
          | characters s => simp [Element.parse] at h
          | cdata s => simp [Element.parse] at h
          | processingInstruction => simp [Element.parse] at h

/-! ### Event counts of the serialized sequence -/

theorem specEventsList_cons (c : Element) (cs : List Element) :
    specEventsList (c :: cs) = specEvents c ++ specEventsList cs := by
  rw [specEventsList, specEvents]

mutual

theorem countP_spec : ∀ (e : Element),
    (specEvents e).countP isStart = nodeCount e ∧
    (specEvents e).countP isEnd = nodeCount e ∧
    (specEvents e).countP isChars = textCount e
  | .mk p n m nm a c t => by
      have hc := countP_specList c
      rw [specEvents, bodyEvents.eq_def]
      simp only [nodeCount, textCount]
      cases t <;>
        simp [List.countP_cons, List.countP_append, startEvent_def, isStart,
          isEnd, isChars, hc.1, hc.2.1, hc.2.2] <;> omega
  termination_by e => sizeOf e

theorem countP_specList : ∀ (cs : List Element),
    (specEventsList cs).countP isStart = nodeCountList cs ∧
    (specEventsList cs).countP isEnd = nodeCountList cs ∧
    (specEventsList cs).countP isChars = textCountList cs
  | [] => by simp [specEventsList, nodeCountList, textCountList]
  | c :: cs => by
      have h1 := countP_spec c
      have h2 := countP_specList cs
      rw [specEventsList_cons]
      simp only [nodeCountList, textCountList, List.countP_append]
      omega
  termination_by cs => sizeOf cs

end

/-! ### List helpers for the navigation API -/

theorem findIdx?_prefix_none {α : Type} (p : α → Bool) :
    ∀ (pre : List α) (c : α) (post : List α) (i : Nat),
      (∀ x ∈ pre, p x = false) → p c = true →
      (pre ++ c :: post).findIdx? p i = some (i + pre.length) := by
  intro pre
  induction pre with
  | nil =>
      intro c post i _ hc
      simp [List.findIdx?_cons, hc]
  | cons a pre ih =>
      intro c post i hpre hc
      have ha : p a = false := hpre a (by simp)
      rw [List.cons_append, List.findIdx?_cons, if_neg (by simp [ha])]
      rw [ih c post (i + 1) (fun x hx => hpre x (by simp [hx])) hc]
      simp only [List.length_cons]
      congr 1
      omega

theorem get?_middle {α : Type} :
    ∀ (pre : List α) (c : α) (post : List α),
      (pre ++ c :: post).get? pre.length = some c := by
  intro pre
  induction pre with
  | nil => intro c post; rfl
  | cons a pre ih => intro c post; simpa using ih c post

theorem eraseIdx_middle {α : Type} :
    ∀ (pre : List α) (c : α) (post : List α),
      (pre ++ c :: post).eraseIdx pre.length = pre ++ post := by
  intro pre
  induction pre with
  | nil => intro c post; rfl
  | cons a pre ih =>
      intro c post
      rw [List.cons_append, List.length_cons, List.eraseIdx]
      rw [ih c post]
      rfl

theorem findIdx?_bind_get {α : Type} (p : α → Bool) :
    ∀ (l : List α), ((l.findIdx? p).bind fun i => l.get? i) = l.find? p := by
  intro l
  induction l with
  | nil => rfl
  | cons a l ih =>
      rw [List.findIdx?_cons]
      by_cases ha : p a
      · simp [ha, List.find?_cons_of_pos _ ha]
      · rw [if_neg (by simp [ha]), List.findIdx?_succ,
          List.find?_cons_of_neg _ (by simp [ha]), ← ih]
        cases l.findIdx? p with
        | none => rfl
        | some i => rfl

/-! ### Sample elements used by concrete witnesses -/

/-- A leaf named `A` with a grandchild-bearing subtree. -/
def sampleA : Element := .mk none none none "A" [("x", "1")] [.mk none none none "g" [] [] none] (some "t")

/-- A leaf named `B`. -/
def sampleB : Element := .mk none none none "B" [] [] none

/-- A second leaf named `A`. -/
def sampleA2 : Element := .mk none none none "A" [] [] none

/-- A parent with children `[A, B, A]`. -/
def sampleParent : Element := .mk none none none "p" [] [sampleA, sampleB, sampleA2] none

/-! ### The claims -/

/-- C1: for every tree `T` obtained as a successful result of `Element.parse`
from an event sequence, serializing `T` via `Element.write` and re-parsing
the emitted event sequence succeeds and yields `T` itself, equal in every
field (name, attributes, children order, text).  This is proved for every
successful parse, which covers in particular the event subset named by the
claim (no comments, no processing instructions, a single text run per
element). -/
theorem c1_round_trip (ts : List Token) (T : Element)
    (h : Element.parse ts = .ok T) :
    Element.parse (T.write.map Token.ev) = .ok T := by
  rw [write_specEvents]
  exact parse_specEvents (parse_wf ts T h)

/-- Witness for C1 at a concrete document with attributes, text, a child,
skipped prologue events and a duplicate attribute. -/
theorem c1_round_trip_witness :
    Element.parse
        [Token.ev XmlEvent.startDocument, Token.ev (XmlEvent.comment "c"),
          Token.ev (XmlEvent.startElement ⟨none, none, "a"⟩
            [⟨Name.local "x", "1"⟩, ⟨Name.local "x", "2"⟩] []),
          Token.ev (XmlEvent.characters "hi"),
          Token.ev (XmlEvent.startElement ⟨none, none, "b"⟩ [] []),
          Token.ev (XmlEvent.endElement ⟨none, none, "b"⟩),
          Token.ev (XmlEvent.endElement ⟨none, none, "a"⟩)] =
      .ok (.mk none none none "a" [("x", "2")]
        [.mk none none none "b" [] [] none] (some "hi")) ∧
    Element.parse
        ((Element.mk none none none "a" [("x", "2")]
          [.mk none none none "b" [] [] none] (some "hi")).write.map Token.ev) =
      .ok (.mk none none none "a" [("x", "2")]
        [.mk none none none "b" [] [] none] (some "hi")) :=
  ⟨by rfl,
    c1_round_trip
      [Token.ev XmlEvent.startDocument, Token.ev (XmlEvent.comment "c"),
        Token.ev (XmlEvent.startElement ⟨none, none, "a"⟩
          [⟨Name.local "x", "1"⟩, ⟨Name.local "x", "2"⟩] []),
        Token.ev (XmlEvent.characters "hi"),
        Token.ev (XmlEvent.startElement ⟨none, none, "b"⟩ [] []),
        Token.ev (XmlEvent.endElement ⟨none, none, "b"⟩),
        Token.ev (XmlEvent.endElement ⟨none, none, "a"⟩)]
      (.mk none none none "a" [("x", "2")]
        [.mk none none none "b" [] [] none] (some "hi")) (by rfl)⟩

/-- C2: in the element body phase, an `EndElement` event whose local name
equals the current element's name terminates that recursion level
successfully with the element, and an `EndElement` with a different name
fails with `CannotParse`. -/
theorem c2_end_tag_matching (fuel : Nat) (ts : List Token) (elem : Element)
    (name : Name) :
    build (fuel + 1) (Token.ev (XmlEvent.endElement name) :: ts) elem =
      if name.local_name = elem.name then .ok (elem, ts)
      else .error .cannotParse := by
  rw [build]

/-- C3: the root search phase skips every `Comment`, `Whitespace` and
`StartDocument` prefix; `EndDocument`, `EndElement`, `Characters`, `CData`
and `ProcessingInstruction` before any `StartElement` fail with
`CannotParse`; a tokenizer error fails with `MalformedXml` wrapping it; the
first `StartElement` becomes the root handed to `build`. -/
theorem c3_root_search (ts : List Token) (s : String) (nm : Name) (code : Nat)
    (attrs : List OwnedAttribute) (n0 : Namespace) :
    (∀ p : List Token, (∀ t ∈ p, Skippable t) →
      Element.parse (p ++ ts) = Element.parse ts) ∧
    Element.parse (Token.ev XmlEvent.endDocument :: ts) = .error .cannotParse ∧
    Element.parse (Token.ev (XmlEvent.endElement nm) :: ts) =
      .error .cannotParse ∧
    Element.parse (Token.ev (XmlEvent.characters s) :: ts) =
      .error .cannotParse ∧
    Element.parse (Token.ev (XmlEvent.cdata s) :: ts) = .error .cannotParse ∧
    Element.parse (Token.ev XmlEvent.processingInstruction :: ts) =
      .error .cannotParse ∧
    Element.parse (Token.err code :: ts) = .error (.malformedXml code) ∧
    Element.parse (Token.ev (XmlEvent.startElement nm attrs n0) :: ts) =
      (build ts.length ts (fromStart nm attrs n0)).map Prod.fst := by
  refine ⟨?_, by rw [Element.parse], by rw [Element.parse],
    by rw [Element.parse], by rw [Element.parse], by rw [Element.parse],
    by rw [Element.parse], ?_⟩
  · intro p
    induction p with
    | nil => intro _; rfl
    | cons t p ih =>
        intro hp
        have ht := hp t (by simp)
        have hrest : ∀ x ∈ p, Skippable x := fun x hx => hp x (by simp [hx])
        cases t with
        | err c => simp [Skippable] at ht
        | ev e' =>
            cases e' with
            | comment s' =>
                rw [List.cons_append, Element.parse]
                exact ih hrest
            | whitespace s' =>
                rw [List.cons_append, Element.parse]
                exact ih hrest
            | startDocument =>
                rw [List.cons_append, Element.parse]
                exact ih hrest
            | startElement a b c => simp [Skippable] at ht
            | endElement a => simp [Skippable] at ht
            | endDocument => simp [Skippable] at ht
            | characters a => simp [Skippable] at ht
            | cdata a => simp [Skippable] at ht
            | processingInstruction => simp [Skippable] at ht
  · rw [Element.parse]
    cases hb : build ts.length ts (fromStart nm attrs n0) with
    | error e0 => simp [Except.map]
    | ok r => simp [Except.map]

/-- Witness for C3: a comment and a `StartDocument` are skipped, after which
an `EndDocument` before any root fails with `CannotParse`. -/
theorem c3_root_search_witness :
    Element.parse
        ([Token.ev (XmlEvent.comment "c"), Token.ev XmlEvent.startDocument] ++
          [Token.ev XmlEvent.endDocument]) =
      .error .cannotParse := by
  have h := c3_root_search [Token.ev XmlEvent.endDocument] "s" ⟨none, none, "n"⟩
    0 [] []
  rw [h.1 [Token.ev (XmlEvent.comment "c"), Token.ev XmlEvent.startDocument]
    (by
      intro t ht
      simp only [List.mem_cons, List.not_mem_nil, or_false] at ht
      rcases ht with rfl | rfl
      · exact trivial
      · exact trivial)]
  exact h.2.1

/-- C4: the serializer emits, per node, exactly one `StartElement` carrying
the composed name, the flattened attribute list and the recorded namespace
set (or the empty set), then zero-or-one `Characters` event from `text`,
then the children in order, then one `EndElement` with the same composed
name; globally the sequence has one `StartElement` and one `EndElement` per
node and one `Characters` per node with text. -/
theorem c4_write_shape (e : Element) (st : List XmlEvent) :
    e._write st = st ++ specEvents e ∧
    specEvents e =
      XmlEvent.startElement (composeName e.pfx e.ns e.name)
          (attrList e.attributes) (e.namespaces.getD Namespace.empty) ::
        ((match e.text with
          | some t => [XmlEvent.characters t]
          | none => []) ++
          specEventsList e.children ++
          [XmlEvent.endElement (composeName e.pfx e.ns e.name)]) ∧
    (specEvents e).countP isStart = nodeCount e ∧
    (specEvents e).countP isEnd = nodeCount e ∧
    (specEvents e).countP isChars = textCount e := by
  refine ⟨write_eq e st, ?_, countP_spec e⟩
  obtain ⟨p, n, m, nm, a, c, t⟩ := e
  rw [specEvents, bodyEvents.eq_def]
  simp [startEvent_def, composeName_eq]

/-- C5: a `Characters` or `CData` event overwrites the `text` field with its
payload; two consecutive runs `"a"` then `"b"` leave `"b"`, not `"ab"`. -/
theorem c5_last_text_wins (fuel : Nat) (ts : List Token) (elem : Element)
    (s s₁ s₂ : String) :
    build (fuel + 1) (Token.ev (XmlEvent.characters s) :: ts) elem =
      build fuel ts (elem.withText (some s)) ∧
    build (fuel + 1) (Token.ev (XmlEvent.cdata s) :: ts) elem =
      build fuel ts (elem.withText (some s)) ∧
    (elem.withText (some s₁)).withText (some s₂) = elem.withText (some s₂) ∧
    Element.parse
        [Token.ev (XmlEvent.startElement ⟨none, none, "r"⟩ [] []),
          Token.ev (XmlEvent.characters "a"),
          Token.ev (XmlEvent.characters "b"),
          Token.ev (XmlEvent.endElement ⟨none, none, "r"⟩)] =
      .ok (.mk none none none "r" [] [] (some "b")) := by
  refine ⟨by rw [build], by rw [build], ?_, by rfl⟩
  obtain ⟨p, n, m, nm, a, c, t⟩ := elem
  rfl

/-- C6: flattening a start tag's attribute list resolves duplicate keys to
the last occurrence, and the keys of the resulting mapping are unique. -/
theorem c6_duplicate_attributes (name : Name) (attrs : List OwnedAttribute)
    (n0 : Namespace) (k v₁ v₂ : String) :
    ((fromStart name attrs n0).attributes.map Prod.fst).Nodup ∧
    (fromStart name [⟨Name.local k, v₁⟩, ⟨Name.local k, v₂⟩] n0).attributes =
      [(k, v₂)] := by
  constructor
  · rw [fromStart]
    simpa using foldAttrs_nodup attrs
  · rw [fromStart]
    simp [foldAttrs, mapInsert, Name.local]

/-- C7: `take_child` removes the first child (lowest index) whose name
equals the key and returns it with its subtree intact, shifting the later
children down; when no child matches it returns `none` and leaves the
element unchanged. -/
theorem c7_take_child (e : Element) (k : String) :
    ((∀ c ∈ e.children, ¬ c.name = k) → e.take_child k = (none, e)) ∧
    (∀ (pre : List Element) (c : Element) (post : List Element),
      e.children = pre ++ c :: post → (∀ x ∈ pre, ¬ x.name = k) →
      c.name = k →
      e.take_child k = (some c, e.withChildren (pre ++ post))) := by
  constructor
  · intro h
    have hnone : e.children.findIdx? (fun c => c.name == k) = none :=
      List.findIdx?_eq_none_iff.mpr (fun x hx => by simpa using h x hx)
    simp [Element.take_child, hnone]
  · intro pre c post hdec hpre hc
    have hidx : e.children.findIdx? (fun c => c.name == k) = some pre.length := by
      rw [hdec]
      simpa using findIdx?_prefix_none (fun c => c.name == k) pre c post 0
        (fun x hx => by simpa using hpre x hx) (by simpa using hc)
    simp only [Element.take_child, hidx]
    rw [hdec, get?_middle, eraseIdx_middle]

/-- Witness for C7: on a parent with children `[A, B, A]`, `take_child "A"`
removes the first `A` (its subtree intact) and leaves `[B, A]`. -/
theorem c7_take_child_witness :
    sampleParent.take_child "A" =
      (some sampleA, sampleParent.withChildren [sampleB, sampleA2]) := by
  have h := (c7_take_child sampleParent "A").2 [] sampleA [sampleB, sampleA2]
    (by rfl) (by intro x hx; simp at hx) (by rfl)
  simpa using h

/-- C8: a successful parse is unaffected by any trailing events: whatever is
appended after the input that produced the tree (a second top-level element,
a trailing processing instruction, a lexical error) yields the same tree
with no error. -/
theorem c8_trailing_ignored (ts : List Token) (T : Element)
    (extra : List Token) (h : Element.parse ts = .ok T) :
    Element.parse (ts ++ extra) = .ok T :=
  parse_append ts T extra h

/-- Witness for C8: a root followed by a processing instruction and a second
top-level element still parses to the root alone. -/
theorem c8_trailing_ignored_witness :
    Element.parse
        ([Token.ev (XmlEvent.startElement ⟨none, none, "r"⟩ [] []),
          Token.ev (XmlEvent.endElement ⟨none, none, "r"⟩)] ++
          [Token.ev XmlEvent.processingInstruction,
            Token.ev (XmlEvent.startElement ⟨none, none, "s"⟩ [] []),
            Token.err 7]) =
      .ok (.mk none none none "r" [] [] none) :=
  c8_trailing_ignored _ _ _ (by rfl)

/-- C9: the end-tag check compares only the local name: any `EndElement`
whose local name equals the element's name closes it, whatever its prefix
and namespace, and two end tags with the same local name behave
identically. -/
theorem c9_local_name_only (fuel : Nat) (ts : List Token) (elem : Element)
    (n₁ n₂ : Name) :
    (n₁.local_name = elem.name →
      build (fuel + 1) (Token.ev (XmlEvent.endElement n₁) :: ts) elem =
        .ok (elem, ts)) ∧
    (n₁.local_name = n₂.local_name →
      build (fuel + 1) (Token.ev (XmlEvent.endElement n₁) :: ts) elem =
        build (fuel + 1) (Token.ev (XmlEvent.endElement n₂) :: ts) elem) := by
  constructor
  · intro h
    rw [build, if_pos h]
  · intro h
    rw [build, build, h]

/-- Witness for C9: an end tag carrying a prefix and a namespace closes an
element recorded with a different prefix and namespace, local names equal. -/
theorem c9_local_name_only_witness :
    (Name.mk (some "p") (some "u") "r").local_name =
      (Element.mk (some "q") (some "w") none "r" [] [] none).name ∧
    build 1
        [Token.ev (XmlEvent.endElement ⟨some "p", some "u", "r"⟩)]
        (.mk (some "q") (some "w") none "r" [] [] none) =
      .ok (.mk (some "q") (some "w") none "r" [] [] none, []) :=
  ⟨rfl,
    (c9_local_name_only 0 [] (.mk (some "q") (some "w") none "r" [] [] none)
      ⟨some "p", some "u", "r"⟩ ⟨some "p", some "u", "r"⟩).1 rfl⟩

/-- C10: the three navigation operations agree: `take_child`'s removed child
is exactly what `get_child` finds, `get_mut_child` performs the same lookup,
and a found child's name equals the key. -/
theorem c10_navigation_agree (e : Element) (k : String) :
    (e.take_child k).1 = e.get_child k ∧
    e.get_mut_child k = e.get_child k ∧
    (∀ c, e.get_child k = some c → c.name = k) := by
  refine ⟨?_, rfl, ?_⟩
  · rw [Element.get_child, ← findIdx?_bind_get]
    cases hidx : e.children.findIdx? (fun c => c.name == k) with
    | none => simp [Element.take_child, hidx]
    | some i => simp [Element.take_child, hidx]
  · intro c hc
    rw [Element.get_child] at hc
    simpa using List.find?_some hc

/-- Witness for C10: on the `[A, B, A]` parent, `get_child "A"` finds the
first `A`, whose name is `"A"`. -/
theorem c10_navigation_agree_witness :
    sampleParent.get_child "A" = some sampleA ∧ sampleA.name = "A" :=
  ⟨by rfl, (c10_navigation_agree sampleParent "A").2.2 sampleA (by rfl)⟩

end Xmltree
